import Mathlib

/-!
Verification of the concurrency-primitives layer of rtlib
(`src/rtl_thread.c`, `include/rtl_thread.h`).

Shallow embedding notes:
* C `int` fields (`rtl_atomic_int_t`) are embedded as `Int`.
* Mutex-protected sections execute atomically (the mutex serialises them),
  so each queue/lock/barrier operation is embedded as a pure state
  transformer or as one step of a step relation.
* The payload buffer (`void**`) is a `List (Option α)`: a slot is `none`
  while it still holds the allocator's uninitialised contents and
  `some v` once the code has stored a payload handle `v` there.
-/

namespace RTLib

/-- Producer-consumer bounded queue state (`rtl_pc_queue_t`, header lines
161-169).  The mutex itself carries no logical state in the atomic-section
model, so it is omitted from the record. -/
structure PCQueue (α : Type) where
  size : Int
  capacity : Int
  head : Int
  tail : Int
  buffer : List (Option α)
  deriving DecidableEq, Repr

/-- `rtl_pc_queue_init` (rtl_thread.c lines 67-75) with a successful
allocation: size, head, tail are zeroed and a `capacity`-slot buffer is
attached (slots uninitialised, i.e. `none`). -/
def rtl_pc_queue_init (α : Type) (capacity : Int) : PCQueue α :=
  { size := 0, capacity := capacity, head := 0, tail := 0,
    buffer := List.replicate capacity.toNat none }

/-- `rtl_pc_queue_enqueue` (rtl_thread.c lines 83-99).  Returns the updated
queue and the C `int` result (0 = full, 1 = enqueued). -/
def rtl_pc_queue_enqueue (q : PCQueue α) (value : α) : PCQueue α × Int :=
  if q.size ≥ q.capacity then
    (q, 0)
  else
    let tail := q.tail
    ({ q with buffer := q.buffer.set tail.toNat (some value),
              tail := (tail + 1) % q.capacity,
              size := q.size + 1 }, 1)

/-- `rtl_pc_queue_dequeue` (rtl_thread.c lines 101-117).  Returns the
updated queue, the C `int` result (0 = empty, 1 = dequeued) and the value
written through the out-parameter (`none` when the function returns 0 and
leaves the out-parameter untouched, or when the slot read was never
written). -/
def rtl_pc_queue_dequeue (q : PCQueue α) : PCQueue α × Int × Option α :=
  if q.size = 0 then
    (q, 0, none)
  else
    let head := q.head
    ({ q with head := (head + 1) % q.capacity,
              size := q.size - 1 }, 1, q.buffer.getD head.toNat none)

/-- `rtl_pc_queue_is_empty` (rtl_thread.c lines 119-122). -/
def rtl_pc_queue_is_empty (q : PCQueue α) : Int :=
  if q.size = 0 then 1 else 0

/-- `rtl_pc_queue_is_full` (rtl_thread.c lines 124-127). -/
def rtl_pc_queue_is_full (q : PCQueue α) : Int :=
  if q.size ≥ q.capacity then 1 else 0

/-- One client operation on the queue. -/
inductive PCOp (α : Type) where
  | enq (v : α)
  | deq
  deriving Repr

/-- State change of one operation (the result value is dropped). -/
def pcStep (q : PCQueue α) : PCOp α → PCQueue α
  | .enq v => (rtl_pc_queue_enqueue q v).1
  | .deq   => (rtl_pc_queue_dequeue q).1

/-- Queue state after `init capacity` followed by a sequence of operations. -/
def pcRun (α : Type) (capacity : Int) (ops : List (PCOp α)) : PCQueue α :=
  ops.foldl pcStep (rtl_pc_queue_init α capacity)

/-- Well-formedness: the data-model invariant of §3 of the spec together
with the ring identity `tail = (head + size) mod capacity` that the code
maintains. -/
def PCWF (q : PCQueue α) : Prop :=
  0 < q.capacity ∧ 0 ≤ q.size ∧ q.size ≤ q.capacity ∧
  0 ≤ q.head ∧ q.head < q.capacity ∧
  q.tail = (q.head + q.size) % q.capacity ∧
  q.buffer.length = q.capacity.toNat

instance (q : PCQueue α) : Decidable (PCWF q) := by
  unfold PCWF; infer_instance

/-- Abstraction: the stored slots, front first (slot `i` of the logical
queue lives at buffer index `(head + i) mod capacity`). -/
def pcAbs (q : PCQueue α) : List (Option α) :=
  (List.range q.size.toNat).map
    (fun (i : Nat) => q.buffer.getD ((q.head + (i : Int)) % q.capacity).toNat none)

-- Arithmetic helpers for ring indices ------------------------------------

theorem emod_two_cases {a c : Int} (h0 : 0 ≤ a) (h1 : a < 2 * c)
    (hc : 0 < c) : a % c = a ∨ a % c = a - c := by
  rcases lt_or_le a c with h | h
  · exact Or.inl (Int.emod_eq_of_lt h0 h)
  · right
    have : (a - c) % c = a % c := by
      have := Int.add_mul_emod_self_left (a := a) (b := c) (c := -1)
      simpa using this
    rw [← this]
    exact Int.emod_eq_of_lt (by omega) (by omega)

/-- Distinct logical offsets below `size < capacity` map to distinct ring
indices. -/
theorem ring_index_ne {c h i j : Int} (hc : 0 < c) (hh0 : 0 ≤ h)
    (hhc : h < c) (hi : 0 ≤ i) (hij : i < j) (hjc : j - i < c) (hj0 : 0 ≤ j)
    (hjc2 : j ≤ c) :
    (h + i) % c ≠ (h + j) % c := by
  have hi2 : (h + i) % c = h + i ∨ (h + i) % c = h + i - c :=
    emod_two_cases (by omega) (by omega) hc
  have hj2 : (h + j) % c = h + j ∨ (h + j) % c = h + j - c :=
    emod_two_cases (by omega) (by omega) hc
  rcases hi2 with hi2 | hi2 <;> rcases hj2 with hj2 | hj2 <;>
    rw [hi2, hj2] <;> omega

theorem emod_nonneg_lt {a c : Int} (hc : 0 < c) :
    0 ≤ a % c ∧ a % c < c :=
  ⟨Int.emod_nonneg a (by omega), Int.emod_lt_of_pos a hc⟩

-- List helpers ------------------------------------------------------------

theorem getD_set_self {l : List (Option α)} {i : Nat} {x : Option α}
    (h : i < l.length) : (l.set i x).getD i none = x := by
  induction l generalizing i with
  | nil => simp at h
  | cons a t ih =>
    cases i with
    | zero => simp [List.getD]
    | succ n =>
      simp only [List.set]
      have hn : n < t.length := by simpa using h
      simpa [List.getD] using ih hn

theorem getD_set_ne {l : List (Option α)} {i j : Nat} {x : Option α}
    (h : i ≠ j) : (l.set i x).getD j none = l.getD j none := by
  induction l generalizing i j with
  | nil => simp
  | cons a t ih =>
    cases i with
    | zero =>
      cases j with
      | zero => exact absurd rfl h
      | succ m => simp [List.getD]
    | succ n =>
      cases j with
      | zero => simp [List.getD]
      | succ m =>
        simp only [List.set]
        simpa [List.getD] using ih (fun hnm => h (by omega))

variable {α : Type}

-- Branch lemmas for the queue operations ----------------------------------

theorem pc_enqueue_full {q : PCQueue α} (h : q.size ≥ q.capacity) (v : α) :
    rtl_pc_queue_enqueue q v = (q, 0) := by
  simp [rtl_pc_queue_enqueue, h]

theorem pc_enqueue_spec {q : PCQueue α} (h : q.size < q.capacity) (v : α) :
    rtl_pc_queue_enqueue q v =
      ({ q with buffer := q.buffer.set q.tail.toNat (some v),
                tail := (q.tail + 1) % q.capacity,
                size := q.size + 1 }, 1) := by
  simp [rtl_pc_queue_enqueue, not_le.mpr h]

theorem pc_dequeue_empty {q : PCQueue α} (h : q.size = 0) :
    rtl_pc_queue_dequeue q = (q, 0, none) := by
  simp [rtl_pc_queue_dequeue, h]

theorem pc_dequeue_spec {q : PCQueue α} (h : q.size ≠ 0) :
    rtl_pc_queue_dequeue q =
      ({ q with head := (q.head + 1) % q.capacity, size := q.size - 1 },
        1, q.buffer.getD q.head.toNat none) := by
  simp [rtl_pc_queue_dequeue, h]

-- Preservation of well-formedness -----------------------------------------

theorem pc_init_wf {capacity : Int} (hc : 0 < capacity) :
    PCWF (rtl_pc_queue_init α capacity) := by
  refine ⟨hc, le_refl 0, le_of_lt hc, le_refl 0, hc, ?_, by
    simp [rtl_pc_queue_init]⟩
  simp [rtl_pc_queue_init]

theorem pc_enqueue_wf {q : PCQueue α} (hwf : PCWF q)
    (h : q.size < q.capacity) (v : α) :
    PCWF (rtl_pc_queue_enqueue q v).1 := by
  obtain ⟨hc, hs0, hsc, hh0, hhc, ht, hlen⟩ := hwf
  rw [pc_enqueue_spec h]
  simp only [PCWF]
  refine ⟨hc, by omega, by omega, hh0, hhc, ?_, by simpa using hlen⟩
  rw [ht, Int.emod_add_emod]
  ring_nf

theorem pc_dequeue_wf {q : PCQueue α} (hwf : PCWF q) (h : q.size ≠ 0) :
    PCWF (rtl_pc_queue_dequeue q).1 := by
  obtain ⟨hc, hs0, hsc, hh0, hhc, ht, hlen⟩ := hwf
  rw [pc_dequeue_spec h]
  simp only [PCWF]
  have hb := emod_nonneg_lt (a := q.head + 1) hc
  refine ⟨hc, by omega, by omega, hb.1, hb.2, ?_, hlen⟩
  rw [Int.emod_add_emod, ht]
  ring_nf

-- Abstraction lemmas -------------------------------------------------------

theorem pc_init_abs {capacity : Int} :
    pcAbs (rtl_pc_queue_init α capacity) = [] := by
  simp [pcAbs, rtl_pc_queue_init]

theorem pc_enqueue_abs {q : PCQueue α} (hwf : PCWF q)
    (h : q.size < q.capacity) (v : α) :
    pcAbs (rtl_pc_queue_enqueue q v).1 = pcAbs q ++ [some v] := by
  obtain ⟨hc, hs0, hsc, hh0, hhc, ht, hlen⟩ := hwf
  rw [pc_enqueue_spec h]
  unfold pcAbs
  simp only
  have hn : (q.size + 1).toNat = q.size.toNat + 1 := by omega
  rw [hn, List.range_succ, List.map_append]
  congr 1
  · apply List.map_congr_left
    intro i hi
    have hilt : i < q.size.toNat := List.mem_range.mp hi
    have hne : (q.head + (i : Int)) % q.capacity ≠
        (q.head + q.size) % q.capacity :=
      ring_index_ne hc hh0 hhc (by omega) (by omega) (by omega) (by omega)
        (by omega)
    have hb1 := emod_nonneg_lt (a := q.head + (i : Int)) hc
    have hb2 := emod_nonneg_lt (a := q.head + q.size) hc
    refine getD_set_ne ?_
    rw [ht]
    omega
  · simp only [List.map_cons, List.map_nil]
    have hidx : ((q.head + (q.size.toNat : Int)) % q.capacity).toNat =
        q.tail.toNat := by
      rw [ht]
      have : (q.size.toNat : Int) = q.size := by omega
      rw [this]
    rw [hidx]
    have hb2 := emod_nonneg_lt (a := q.head + q.size) hc
    have hlt : q.tail.toNat < q.buffer.length := by
      rw [hlen, ht]; omega
    rw [getD_set_self hlt]

theorem pc_dequeue_abs {q : PCQueue α} (hwf : PCWF q) (h : q.size ≠ 0) :
    pcAbs q = (rtl_pc_queue_dequeue q).2.2 :: pcAbs (rtl_pc_queue_dequeue q).1 := by
  obtain ⟨hc, hs0, hsc, hh0, hhc, ht, hlen⟩ := hwf
  rw [pc_dequeue_spec h]
  unfold pcAbs
  simp only
  have hn : q.size.toNat = (q.size - 1).toNat + 1 := by omega
  rw [hn, List.range_succ_eq_map, List.map_cons]
  congr 1
  · have : (q.head + ((0 : Nat) : Int)) % q.capacity = q.head := by
      simpa using Int.emod_eq_of_lt hh0 hhc
    rw [this]
  · rw [List.map_map]
    apply List.map_congr_left
    intro i hi
    simp only [Function.comp]
    congr 2
    rw [Int.emod_add_emod]
    push_cast
    ring_nf

-- Well-formedness along any run -------------------------------------------

theorem pcStep_wf {q : PCQueue α} (hwf : PCWF q) (op : PCOp α) :
    PCWF (pcStep q op) := by
  cases op with
  | enq v =>
    by_cases h : q.size < q.capacity
    · exact pc_enqueue_wf hwf h v
    · show PCWF (rtl_pc_queue_enqueue q v).1
      rw [pc_enqueue_full (by omega) v]
      exact hwf
  | deq =>
    by_cases h : q.size = 0
    · show PCWF (rtl_pc_queue_dequeue q).1
      rw [pc_dequeue_empty h]
      exact hwf
    · exact pc_dequeue_wf hwf h

theorem pc_foldl_wf {q : PCQueue α} (hwf : PCWF q) (ops : List (PCOp α)) :
    PCWF (ops.foldl pcStep q) := by
  induction ops generalizing q with
  | nil => exact hwf
  | cons op rest ih => exact ih (pcStep_wf hwf op)

theorem pcRun_wf {capacity : Int} (hc : 0 < capacity) (ops : List (PCOp α)) :
    PCWF (pcRun α capacity ops) :=
  pc_foldl_wf (pc_init_wf hc) ops

-- Sequenced runs collecting results ---------------------------------------

/-- Run `rtl_pc_queue_enqueue` over a list of values, collecting each
call's return code. -/
def pcEnqList (q : PCQueue α) : List α → PCQueue α × List Int
  | [] => (q, [])
  | v :: vs =>
    let r := rtl_pc_queue_enqueue q v
    let rest := pcEnqList r.1 vs
    (rest.1, r.2 :: rest.2)

/-- Run `rtl_pc_queue_dequeue` `n` times, collecting each call's return
code and delivered value. -/
def pcDeqN (q : PCQueue α) : Nat → PCQueue α × List (Int × Option α)
  | 0 => (q, [])
  | n + 1 =>
    let r := rtl_pc_queue_dequeue q
    let rest := pcDeqN r.1 n
    (rest.1, r.2 :: rest.2)

theorem pcEnqList_spec {q : PCQueue α} (hwf : PCWF q) (vs : List α)
    (h : q.size + (vs.length : Int) ≤ q.capacity) :
    (pcEnqList q vs).2 = vs.map (fun _ => (1 : Int)) ∧
    PCWF (pcEnqList q vs).1 ∧
    pcAbs (pcEnqList q vs).1 = pcAbs q ++ vs.map some := by
  induction vs generalizing q with
  | nil => exact ⟨rfl, hwf, by simp [pcEnqList]⟩
  | cons v vs ih =>
    obtain ⟨hc, hs0, hsc, hh0, hhc, ht, hlen⟩ := hwf
    have hwf : PCWF q := ⟨hc, hs0, hsc, hh0, hhc, ht, hlen⟩
    simp only [List.length_cons] at h
    have hlt : q.size < q.capacity := by push_cast at h; omega
    have hq1wf := pc_enqueue_wf hwf hlt v
    have hq1sz : (rtl_pc_queue_enqueue q v).1.size = q.size + 1 := by
      rw [pc_enqueue_spec hlt]
    have hq1cap : (rtl_pc_queue_enqueue q v).1.capacity = q.capacity := by
      rw [pc_enqueue_spec hlt]
    have hret : (rtl_pc_queue_enqueue q v).2 = 1 := by
      rw [pc_enqueue_spec hlt]
    obtain ⟨ih1, ih2, ih3⟩ := ih hq1wf (by rw [hq1sz, hq1cap]; push_cast at h ⊢; omega)
    refine ⟨?_, ih2, ?_⟩
    · simp only [pcEnqList, List.map_cons]
      rw [ih1, hret]
    · simp only [pcEnqList, List.map_cons]
      rw [ih3, pc_enqueue_abs hwf hlt v, List.append_assoc, List.singleton_append]

theorem pcDeqN_spec {q : PCQueue α} (hwf : PCWF q) (vs : List (Option α))
    (habs : pcAbs q = vs) :
    (pcDeqN q vs.length).2 = vs.map (fun v => ((1 : Int), v)) := by
  induction vs generalizing q with
  | nil => simp [pcDeqN]
  | cons v vs ih =>
    have hlen : (pcAbs q).length = q.size.toNat := by
      simp [pcAbs]
    have hsz : q.size ≠ 0 := by
      rw [habs] at hlen
      simp only [List.length_cons] at hlen
      omega
    have hstep := pc_dequeue_abs hwf hsz
    rw [habs] at hstep
    obtain ⟨hv, hrest⟩ :
        v = (rtl_pc_queue_dequeue q).2.2 ∧
        vs = pcAbs (rtl_pc_queue_dequeue q).1 := by
      simpa using hstep
    have hr : (rtl_pc_queue_dequeue q).2.1 = 1 := by
      rw [pc_dequeue_spec hsz]
    have hpair : (rtl_pc_queue_dequeue q).2 = (1, v) := by
      rw [Prod.ext_iff]
      exact ⟨hr, hv.symm⟩
    simp only [List.length_cons, pcDeqN, List.map_cons]
    rw [ih (pc_dequeue_wf hwf hsz) hrest.symm, hpair]

-- Specification predicate for one enqueue call (claim C2) ------------------

/-- Contract of a single `rtl_pc_queue_enqueue` call on a well-formed
state: on `size < capacity` it returns 1, stores the value at buffer
index `tail`, leaves every other slot and `head` unchanged, advances
`tail` modulo `capacity` and increments `size`; on `size == capacity` it
returns 0 and leaves the whole state unchanged. -/
def pcEnqContract (q : PCQueue α) (v : α) : Prop :=
  (q.size < q.capacity →
    (rtl_pc_queue_enqueue q v).2 = 1 ∧
    (rtl_pc_queue_enqueue q v).1.buffer.getD q.tail.toNat none = some v ∧
    (∀ i : Nat, i ≠ q.tail.toNat →
      (rtl_pc_queue_enqueue q v).1.buffer.getD i none = q.buffer.getD i none) ∧
    (rtl_pc_queue_enqueue q v).1.tail = (q.tail + 1) % q.capacity ∧
    (rtl_pc_queue_enqueue q v).1.size = q.size + 1 ∧
    (rtl_pc_queue_enqueue q v).1.head = q.head) ∧
  (q.size = q.capacity → rtl_pc_queue_enqueue q v = (q, 0))

-- Claim theorems for the bounded queue -------------------------------------

/-- C1: on every state reachable from `rtl_pc_queue_init` (capacity > 0)
by any sequence of operations, `rtl_pc_queue_enqueue` returns 0 iff
`size == capacity` and `rtl_pc_queue_dequeue` returns 0 iff `size == 0`
at the time of the call. -/
theorem pc_queue_boundary {α : Type} (capacity : Int) (hc : 0 < capacity)
    (ops : List (PCOp α)) (v : α) :
    ((rtl_pc_queue_enqueue (pcRun α capacity ops) v).2 = 0 ↔
      (pcRun α capacity ops).size = (pcRun α capacity ops).capacity) ∧
    ((rtl_pc_queue_dequeue (pcRun α capacity ops)).2.1 = 0 ↔
      (pcRun α capacity ops).size = 0) := by
  obtain ⟨hcap, hs0, hsc, -, -, -, -⟩ := pcRun_wf (α := α) hc ops
  constructor
  · by_cases h : (pcRun α capacity ops).size = (pcRun α capacity ops).capacity
    · rw [pc_enqueue_full (ge_of_eq h)]
      simp [h]
    · have hlt : (pcRun α capacity ops).size < (pcRun α capacity ops).capacity := by
        omega
      rw [pc_enqueue_spec hlt]
      simp [h]
  · by_cases h : (pcRun α capacity ops).size = 0
    · rw [pc_dequeue_empty h]
      simp [h]
    · rw [pc_dequeue_spec h]
      simp [h]

/-- C1 witness at a concrete run. -/
theorem pc_queue_boundary_witness :
    ((rtl_pc_queue_enqueue (pcRun Int 2 [PCOp.enq 5]) 7).2 = 0 ↔
      (pcRun Int 2 [PCOp.enq 5]).size = (pcRun Int 2 [PCOp.enq 5]).capacity) ∧
    ((rtl_pc_queue_dequeue (pcRun Int 2 [PCOp.enq 5])).2.1 = 0 ↔
      (pcRun Int 2 [PCOp.enq 5]).size = 0) :=
  pc_queue_boundary 2 (by decide) [PCOp.enq 5] 7

/-- C2: on every well-formed state, `rtl_pc_queue_enqueue` satisfies its
store/advance/increment contract when `size < capacity` and is a
0-returning no-op when `size == capacity`. -/
theorem pc_enqueue_correct {q : PCQueue α} (v : α) (hwf : PCWF q) :
    pcEnqContract q v := by
  obtain ⟨hc, hs0, hsc, hh0, hhc, ht, hlen⟩ := hwf
  constructor
  · intro hlt
    have hb := emod_nonneg_lt (a := q.head + q.size) hc
    have htl : q.tail.toNat < q.buffer.length := by
      rw [hlen, ht]; omega
    rw [pc_enqueue_spec hlt]
    refine ⟨rfl, getD_set_self htl, ?_, rfl, rfl, rfl⟩
    intro i hi
    exact getD_set_ne (Ne.symm hi)
  · intro heq
    exact pc_enqueue_full (ge_of_eq heq) v

/-- C2 witness at a concrete well-formed state. -/
theorem pc_enqueue_correct_witness :
    pcEnqContract (rtl_pc_queue_init Int 2) 5 :=
  pc_enqueue_correct 5 (by decide)

/-- C3: enqueueing the values of `vs` into a fresh queue of capacity
`≥ vs.length` succeeds call by call, and `vs.length` subsequent dequeues
all succeed and deliver exactly `vs` in order (FIFO). -/
theorem pc_queue_fifo {α : Type} (vs : List α) (capacity : Int)
    (hc : 0 < capacity) (hcap : (vs.length : Int) ≤ capacity) :
    (pcEnqList (rtl_pc_queue_init α capacity) vs).2 =
      vs.map (fun _ => (1 : Int)) ∧
    (pcDeqN (pcEnqList (rtl_pc_queue_init α capacity) vs).1 vs.length).2 =
      vs.map (fun v => ((1 : Int), some v)) := by
  have hwf := pc_init_wf (α := α) hc
  have hsz : (rtl_pc_queue_init α capacity).size + (vs.length : Int) ≤
      (rtl_pc_queue_init α capacity).capacity := by
    simpa [rtl_pc_queue_init] using hcap
  obtain ⟨hret, hwf', habs⟩ := pcEnqList_spec hwf vs hsz
  refine ⟨hret, ?_⟩
  rw [pc_init_abs] at habs
  simp only [List.nil_append] at habs
  have h := pcDeqN_spec hwf' (vs.map some) habs
  simpa [List.map_map, Function.comp] using h

/-- C3 witness at a concrete enqueue/dequeue round trip. -/
theorem pc_queue_fifo_witness :
    (pcEnqList (rtl_pc_queue_init Int 3) [10, 20, 30]).2 =
      ([10, 20, 30] : List Int).map (fun _ => (1 : Int)) ∧
    (pcDeqN (pcEnqList (rtl_pc_queue_init Int 3) [10, 20, 30]).1 3).2 =
      ([10, 20, 30] : List Int).map (fun v => ((1 : Int), some v)) :=
  pc_queue_fifo [10, 20, 30] 3 (by decide) (by decide)

-- Reader-writer lock -------------------------------------------------------

/-- Reader-writer lock state (`rtl_rw_lock_t`, header lines 180-186).
The mutex carries no logical state in the atomic-section model. -/
structure RWLock where
  readers : Int
  writers_waiting : Int
  writer_active : Int
  deriving DecidableEq, Repr

/-- `rtl_rw_lock_init` (rtl_thread.c lines 135-141). -/
def rtl_rw_lock_init : RWLock :=
  { readers := 0, writers_waiting := 0, writer_active := 0 }

/-- `rtl_rw_lock_read_unlock` (rtl_thread.c lines 162-165): a bare atomic
decrement of `readers`, with no mutex and no lower-bound check. -/
def rtl_rw_lock_read_unlock (l : RWLock) : RWLock :=
  { l with readers := l.readers - 1 }

/-- `rtl_rw_lock_write_unlock` (rtl_thread.c lines 183-186): stores 0
into `writer_active`. -/
def rtl_rw_lock_write_unlock (l : RWLock) : RWLock :=
  { l with writer_active := 0 }

/-- `rtl_rw_lock_read_lock`: the admission step, i.e. the state change
performed under the mutex once the spin loop at rtl_thread.c lines
152-156 has exited. -/
def rtl_rw_lock_read_lock_enter_reader (l : RWLock) : RWLock :=
  { l with readers := l.readers + 1 }

/-- `rtl_rw_lock_write_lock`, registration step (rtl_thread.c line 170):
the caller registers as a waiting writer under the mutex. -/
def rtl_rw_lock_write_lock_enter (l : RWLock) : RWLock :=
  { l with writers_waiting := l.writers_waiting + 1 }

/-- `rtl_rw_lock_write_lock`, acquisition step (rtl_thread.c lines
178-179), performed under the mutex once the spin loop at lines 172-176
has exited. -/
def rtl_rw_lock_write_lock_acquire (l : RWLock) : RWLock :=
  { l with writers_waiting := l.writers_waiting - 1, writer_active := 1 }

/-- One atomic step of the lock.  The guards of the two lock steps are
the exit conditions of the corresponding spin loops in the code; the
guards of the unlock steps and of the acquisition step encode the usage
contract (balanced calls): `read_unlock` is called only by a thread
whose `read_lock` returned (so an admitted reader exists),
`write_unlock` only by the active writer, and the acquisition step of
`write_lock` only by a thread whose registration step already ran. -/
inductive RWStep : RWLock → RWLock → Prop where
  | read_lock {l : RWLock} (hw : l.writer_active ≤ 0)
      (hww : l.writers_waiting ≤ 0) :
      RWStep l (rtl_rw_lock_read_lock_enter_reader l)
  | read_unlock {l : RWLock} (hr : 0 < l.readers) :
      RWStep l (rtl_rw_lock_read_unlock l)
  | write_lock_enter {l : RWLock} :
      RWStep l (rtl_rw_lock_write_lock_enter l)
  | write_lock_acquire {l : RWLock} (hr : l.readers ≤ 0)
      (hw : l.writer_active ≤ 0) (hww : 0 < l.writers_waiting) :
      RWStep l (rtl_rw_lock_write_lock_acquire l)
  | write_unlock {l : RWLock} (hw : l.writer_active = 1) :
      RWStep l (rtl_rw_lock_write_unlock l)

/-- States reachable from `rtl_rw_lock_init` by interleaved lock steps. -/
inductive RWReachable : RWLock → Prop where
  | init : RWReachable rtl_rw_lock_init
  | step {l l' : RWLock} : RWReachable l → RWStep l l' → RWReachable l'

/-- Inductive invariant of the lock. -/
def RWInv (l : RWLock) : Prop :=
  0 ≤ l.readers ∧ 0 ≤ l.writers_waiting ∧
  (l.writer_active = 0 ∨ l.writer_active = 1) ∧
  (l.writer_active = 1 → l.readers = 0)

theorem rw_step_inv {l l' : RWLock} (hinv : RWInv l) (hstep : RWStep l l') :
    RWInv l' := by
  obtain ⟨h1, h2, h3, h4⟩ := hinv
  cases hstep with
  | read_lock hw hww =>
    simp [RWInv, rtl_rw_lock_read_lock_enter_reader] <;> omega
  | read_unlock hr =>
    simp [RWInv, rtl_rw_lock_read_unlock] <;> omega
  | write_lock_enter =>
    simp [RWInv, rtl_rw_lock_write_lock_enter] <;> omega
  | write_lock_acquire hr hw hww =>
    simp [RWInv, rtl_rw_lock_write_lock_acquire] <;> omega
  | write_unlock hw =>
    simp [RWInv, rtl_rw_lock_write_unlock] <;> omega

theorem rw_reachable_inv {l : RWLock} (h : RWReachable l) : RWInv l := by
  induction h with
  | init => exact ⟨le_refl 0, le_refl 0, Or.inl rfl, fun h => rfl⟩
  | step _ hstep ih => exact rw_step_inv ih hstep

/-- C5: in every reachable state of the lock, an active writer excludes
all readers, and `writer_active` never exceeds 1. -/
theorem rw_lock_mutual_exclusion {l : RWLock} (h : RWReachable l) :
    (l.writer_active = 1 → l.readers = 0) ∧ l.writer_active ≤ 1 := by
  obtain ⟨-, -, h3, h4⟩ := rw_reachable_inv h
  exact ⟨h4, by omega⟩

/-- C5 witness at the initial state. -/
theorem rw_lock_mutual_exclusion_witness :
    (rtl_rw_lock_init.writer_active = 1 → rtl_rw_lock_init.readers = 0) ∧
    rtl_rw_lock_init.writer_active ≤ 1 :=
  rw_lock_mutual_exclusion RWReachable.init

/-- C6: writer preference: a step of the lock that increases the
`readers` counter can only be the read-admission step, whose guard
requires that no writer is active and no writer is waiting. -/
theorem rw_lock_writer_preference {l l' : RWLock} (hstep : RWStep l l')
    (hinc : l.readers < l'.readers) :
    l.writer_active ≤ 0 ∧ l.writers_waiting ≤ 0 := by
  cases hstep with
  | read_lock hw hww => exact ⟨hw, hww⟩
  | read_unlock hr =>
    simp only [rtl_rw_lock_read_unlock] at hinc
    omega
  | write_lock_enter =>
    simp only [rtl_rw_lock_write_lock_enter] at hinc
    omega
  | write_lock_acquire hr hw hww =>
    simp only [rtl_rw_lock_write_lock_acquire] at hinc
    omega
  | write_unlock hw =>
    simp only [rtl_rw_lock_write_unlock] at hinc
    omega

/-- C6 witness: a concrete admission step. -/
theorem rw_lock_writer_preference_witness :
    rtl_rw_lock_init.writer_active ≤ 0 ∧
    rtl_rw_lock_init.writers_waiting ≤ 0 :=
  rw_lock_writer_preference
    (RWStep.read_lock (by decide) (by decide)) (by decide)

/-- C10: `rtl_rw_lock_read_unlock` only decrements `readers` (by exactly
one), leaving `writers_waiting` and `writer_active` unchanged; it has no
lower-bound check, so on a state with `readers = 0` it produces
`readers = -1`; the data-model bound `readers ≥ 0` does hold on every
state reachable under balanced usage. -/
theorem rw_read_unlock_frame (l : RWLock) :
    ((rtl_rw_lock_read_unlock l).readers = l.readers - 1 ∧
     (rtl_rw_lock_read_unlock l).writers_waiting = l.writers_waiting ∧
     (rtl_rw_lock_read_unlock l).writer_active = l.writer_active) ∧
    (l.readers = 0 → (rtl_rw_lock_read_unlock l).readers = -1) ∧
    (RWReachable l → 0 ≤ l.readers) := by
  refine ⟨⟨rfl, rfl, rfl⟩, fun h => ?_, fun h => (rw_reachable_inv h).1⟩
  simp [rtl_rw_lock_read_unlock, h]

/-- C10 witness at the initial state (where `readers = 0`). -/
theorem rw_read_unlock_frame_witness :
    ((rtl_rw_lock_read_unlock rtl_rw_lock_init).readers =
        rtl_rw_lock_init.readers - 1 ∧
     (rtl_rw_lock_read_unlock rtl_rw_lock_init).writers_waiting =
        rtl_rw_lock_init.writers_waiting ∧
     (rtl_rw_lock_read_unlock rtl_rw_lock_init).writer_active =
        rtl_rw_lock_init.writer_active) ∧
    (rtl_rw_lock_init.readers = 0 →
      (rtl_rw_lock_read_unlock rtl_rw_lock_init).readers = -1) ∧
    (RWReachable rtl_rw_lock_init → 0 ≤ rtl_rw_lock_init.readers) :=
  rw_read_unlock_frame rtl_rw_lock_init

-- Barrier -------------------------------------------------------------------

/-- Barrier state (`rtl_barrier_t`, header lines 196-202). -/
structure Barrier where
  count : Int
  generation : Int
  expected_count : Int
  deriving DecidableEq, Repr

/-- `rtl_barrier_init` (rtl_thread.c lines 189-195). -/
def rtl_barrier_init (expected_count : Int) : Barrier :=
  { count := 0, generation := 0, expected_count := expected_count }

/-- The state change of one arrival in `rtl_barrier_wait` (rtl_thread.c
lines 202-221): under the mutex the arriving thread increments `count`;
if the incremented count equals `expected_count` it resets `count` to 0
and increments `generation` (tripping the barrier); otherwise it
spin-waits for the generation change, which mutates no state. -/
def rtl_barrier_arrive (b : Barrier) : Barrier :=
  let b1 : Barrier := { b with count := b.count + 1 }
  if b1.count = b.expected_count then
    { b1 with count := 0, generation := b1.generation + 1 }
  else
    b1

/-- Barrier state after `n` arrivals following `rtl_barrier_init e`. -/
def barrierRun (e : Int) : Nat → Barrier
  | 0 => rtl_barrier_init e
  | n + 1 => rtl_barrier_arrive (barrierRun e n)

theorem emod_ediv_of_decomp {e q r a : Int} (he : 0 < e) (ha : a = e * q + r)
    (hr0 : 0 ≤ r) (hre : r < e) : a % e = r ∧ a / e = q := by
  subst ha
  constructor
  · rw [add_comm, Int.add_mul_emod_self_left]
    exact Int.emod_eq_of_lt hr0 hre
  · rw [add_comm, Int.add_mul_ediv_left _ _ (by omega : e ≠ 0),
      Int.ediv_eq_zero_of_lt hr0 hre]
    ring

theorem barrierRun_closed_form {e : Int} (he : 0 < e) (n : Nat) :
    (barrierRun e n).count = (n : Int) % e ∧
    (barrierRun e n).generation = (n : Int) / e ∧
    (barrierRun e n).expected_count = e := by
  induction n with
  | zero =>
    refine ⟨?_, ?_, rfl⟩
    · simp [barrierRun, rtl_barrier_init]
    · simp [barrierRun, rtl_barrier_init]
  | succ n ih =>
    obtain ⟨hcnt, hgen, hexp⟩ := ih
    have hr0 : 0 ≤ (n : Int) % e := Int.emod_nonneg _ (by omega)
    have hre : (n : Int) % e < e := Int.emod_lt_of_pos _ he
    have hdm := Int.ediv_add_emod (n : Int) e
    show (rtl_barrier_arrive (barrierRun e n)).count = _ ∧
      (rtl_barrier_arrive (barrierRun e n)).generation = _ ∧
      (rtl_barrier_arrive (barrierRun e n)).expected_count = _
    unfold rtl_barrier_arrive
    rw [hcnt, hgen, hexp]
    by_cases hfull : (n : Int) % e + 1 = e
    · rw [if_pos hfull]
      have hd : ((n : Nat) + 1 : Int) = e * ((n : Int) / e + 1) + 0 := by
        push_cast
        linarith
      obtain ⟨hm, hq⟩ := emod_ediv_of_decomp he hd (le_refl 0) he
      push_cast at hm hq ⊢
      exact ⟨by rw [hm], by rw [hq], rfl⟩
    · rw [if_neg hfull]
      have hd : ((n : Nat) + 1 : Int) = e * ((n : Int) / e) + ((n : Int) % e + 1) := by
        push_cast
        linarith
      obtain ⟨hm, hq⟩ := emod_ediv_of_decomp he hd (by omega) (by omega)
      push_cast at hm hq ⊢
      exact ⟨by rw [hm], by rw [hq], rfl⟩

/-- C7: after `n` arrivals at a barrier initialised with
`expected_count = e > 0`, `count = n mod e` (hence `0 ≤ count < e`) and
`generation = n / e` (exactly one increment per completed cycle of `e`
arrivals); moreover the next arrival resets `count` to 0 and increments
`generation` exactly when it brings the count to `e`. -/
theorem barrier_cycle (e : Int) (he : 0 < e) (n : Nat) :
    0 ≤ (barrierRun e n).count ∧ (barrierRun e n).count < e ∧
    (barrierRun e n).count = (n : Int) % e ∧
    (barrierRun e n).generation = (n : Int) / e ∧
    ((rtl_barrier_arrive (barrierRun e n)).count = 0 ↔
      (barrierRun e n).count + 1 = e) ∧
    ((rtl_barrier_arrive (barrierRun e n)).generation =
        (barrierRun e n).generation + 1 ↔
      (barrierRun e n).count + 1 = e) := by
  obtain ⟨hcnt, hgen, hexp⟩ := barrierRun_closed_form he n
  have hr0 : 0 ≤ (n : Int) % e := Int.emod_nonneg _ (by omega)
  have hre : (n : Int) % e < e := Int.emod_lt_of_pos _ he
  refine ⟨by omega, by omega, hcnt, hgen, ?_, ?_⟩ <;>
    · unfold rtl_barrier_arrive
      rw [hexp]
      by_cases hfull : (barrierRun e n).count + 1 = e
      · rw [if_pos hfull]
        simp [hfull]
      · rw [if_neg hfull]
        simp only
        constructor
        · intro h
          omega
        · intro h
          exact absurd h hfull

/-- C7 witness: a barrier with `expected_count = 2` after 3 arrivals. -/
theorem barrier_cycle_witness :
    0 ≤ (barrierRun 2 3).count ∧ (barrierRun 2 3).count < 2 ∧
    (barrierRun 2 3).count = (3 : Int) % 2 ∧
    (barrierRun 2 3).generation = (3 : Int) / 2 ∧
    ((rtl_barrier_arrive (barrierRun 2 3)).count = 0 ↔
      (barrierRun 2 3).count + 1 = 2) ∧
    ((rtl_barrier_arrive (barrierRun 2 3)).generation =
        (barrierRun 2 3).generation + 1 ↔
      (barrierRun 2 3).count + 1 = 2) :=
  barrier_cycle 2 (by decide) 3

-- Queue initialisation with the allocator outcome made explicit (C4) -------

/-- `rtl_pc_queue_t` with the buffer pointer made explicit: `none`
models a NULL `buffer`. -/
structure PCQueueRaw (α : Type) where
  size : Int
  capacity : Int
  head : Int
  tail : Int
  buffer : Option (List (Option α))
  deriving DecidableEq, Repr

/-- `rtl_pc_queue_init` (rtl_thread.c lines 67-75) with the allocator
outcome made explicit: `allocOk = false` models `rtl_malloc` returning
NULL.  The function unconditionally zeroes the counters, stores the
capacity and assigns whatever `rtl_malloc` returned to `buffer`; its C
return type is `void` (header line 171), so nothing is reported to the
caller in either case. -/
def rtl_pc_queue_init_raw (α : Type) (capacity : Int) (allocOk : Bool) :
    PCQueueRaw α :=
  { size := 0, capacity := capacity, head := 0, tail := 0,
    buffer := if allocOk then some (List.replicate capacity.toNat none)
              else none }

/-- C4 counterexample: with a failed allocation, `rtl_pc_queue_init`
does leave a reachable queue whose buffer is NULL (and, its return type
being `void`, it delivers no failure indication), contradicting the
claim that no such queue is produced. -/
theorem pc_init_alloc_fail_counterexample :
    ¬ ((rtl_pc_queue_init_raw Int 3 false).buffer ≠ none) := by
  decide

/-- C4 amended: `rtl_pc_queue_init` returns `void`; when the allocator
fails it still produces a queue with `size = head = tail = 0` and the
requested capacity but a NULL buffer, and the caller receives no
failure signal. -/
theorem pc_init_alloc_fail_amended (α : Type) (capacity : Int) :
    rtl_pc_queue_init_raw α capacity false =
      { size := 0, capacity := capacity, head := 0, tail := 0,
        buffer := none } := rfl

-- Lock-free SPSC queue (C8) -------------------------------------------------

/-- Lock-free SPSC queue state (`rtl_lockfree_queue_t`, header lines
209-216). -/
structure LFQueue (α : Type) where
  head : Int
  tail : Int
  size : Int
  capacity : Int
  buffer : List (Option α)
  deriving DecidableEq, Repr

/-- Modelled from the spec: the body of `rtl_lockfree_queue_enqueue` is
absent from the repository sources (only its declaration at rtl_thread.h
line 220 and its test callers exist), so this definition follows spec
§4.6 word for word: if `(tail+1) mod capacity == head` the queue is full
and the call returns false (0); otherwise the value is written to
`buffer[tail]`, then `tail` is published as `(tail+1) mod capacity`, and
the call returns true (1). -/
def rtl_lockfree_queue_enqueue (q : LFQueue α) (value : α) : LFQueue α × Int :=
  if (q.tail + 1) % q.capacity = q.head then
    (q, 0)
  else
    ({ q with buffer := q.buffer.set q.tail.toNat (some value),
              tail := (q.tail + 1) % q.capacity }, 1)

/-- C8: `rtl_lockfree_queue_enqueue` returns 0 exactly when
`(tail+1) mod capacity == head`, and otherwise stores the value at
buffer index `tail`, advances `tail` to `(tail+1) mod capacity`, leaves
`head` unchanged and returns 1. -/
theorem lf_enqueue_contract (q : LFQueue α) (v : α) :
    ((rtl_lockfree_queue_enqueue q v).2 = 0 ↔
      (q.tail + 1) % q.capacity = q.head) ∧
    ((q.tail + 1) % q.capacity ≠ q.head →
      (rtl_lockfree_queue_enqueue q v).1.buffer =
        q.buffer.set q.tail.toNat (some v) ∧
      (rtl_lockfree_queue_enqueue q v).1.tail = (q.tail + 1) % q.capacity ∧
      (rtl_lockfree_queue_enqueue q v).1.head = q.head ∧
      (rtl_lockfree_queue_enqueue q v).2 = 1) := by
  by_cases h : (q.tail + 1) % q.capacity = q.head <;>
    simp [rtl_lockfree_queue_enqueue, h]

/-- A concrete empty 4-slot SPSC queue used as the C8 witness state. -/
def lfWitnessState : LFQueue Int :=
  { head := 0, tail := 0, size := 0, capacity := 4,
    buffer := List.replicate 4 none }

/-- C8 witness at a concrete empty 4-slot queue. -/
theorem lf_enqueue_contract_witness :
    ((rtl_lockfree_queue_enqueue lfWitnessState 9).2 = 0 ↔
      (lfWitnessState.tail + 1) % lfWitnessState.capacity =
        lfWitnessState.head) ∧
    ((lfWitnessState.tail + 1) % lfWitnessState.capacity ≠
        lfWitnessState.head →
      (rtl_lockfree_queue_enqueue lfWitnessState 9).1.buffer =
        lfWitnessState.buffer.set lfWitnessState.tail.toNat (some 9) ∧
      (rtl_lockfree_queue_enqueue lfWitnessState 9).1.tail =
        (lfWitnessState.tail + 1) % lfWitnessState.capacity ∧
      (rtl_lockfree_queue_enqueue lfWitnessState 9).1.head =
        lfWitnessState.head ∧
      (rtl_lockfree_queue_enqueue lfWitnessState 9).2 = 1) :=
  lf_enqueue_contract lfWitnessState 9

end RTLib
